import Mathlib

/-!
Verification of the design-pattern demos in this repository.

Two independent demos are modelled:

- the factory demo (`factoryMethod.go`): a `Phone` with a `status` and an
  `os` field, two constructor functions `NewAndroid` / `NewGoogle`, an
  accessor `GetOS` and idempotent toggles `TurnOn` / `TurnOff` that print a
  line exactly when the state changes.  Printing is modelled by returning
  the list of emitted lines next to the new state.

- the composite demo (`composite` package): five node kinds
  (`Division`, `Brigade`, `Platoon`, `Squad` are containers, `Enlisted` is
  the leaf), each exposing `Brief(orders)` and variadic `Add`.  A
  container's `Brief` first briefs each child in insertion order, then
  prints a summary line with the count of its direct children; the leaf
  prints the order string.  Printed lines are modelled as the returned
  list of strings, in emission order.

The Go values of the composite demo are interface pointers, so the same
node can be added to several containers or even to itself.  Two embeddings
are therefore given: a pure tree (`Soldier`), faithful to the recursion of
the methods on tree-shaped structures, and a heap model (`Heap.Store`,
nodes addressed by allocation index) in which aliasing and cycles are
expressible and `Brief` takes explicit fuel.  `Heap.resolve` ties the two
together by unfolding a heap node into a pure tree when that is possible.
-/

/-! Factory demo: the `Phone` struct and its methods. -/

structure Phone where
  status : String
  os : String
deriving DecidableEq, Repr

def Phone.GetOS (p : Phone) : String :=
  p.os

def Phone.TurnOn (p : Phone) : Phone × List String :=
  if p.status = "on" then (p, [])
  else ({ p with status := "on" }, ["Turning phone on"])

def Phone.TurnOff (p : Phone) : Phone × List String :=
  if p.status = "off" then (p, [])
  else ({ p with status := "off" }, ["Turning phone off"])

def NewAndroid : Phone :=
  { status := "off", os := "android" }

def NewGoogle : Phone :=
  { status := "off", os := "google" }

/-- A single power-toggle request, as issued by a caller. -/
inductive Toggle where
  | powerOn
  | powerOff
deriving DecidableEq, Repr

def Phone.applyToggle (p : Phone) (t : Toggle) : Phone × List String :=
  match t with
  | .powerOn => p.TurnOn
  | .powerOff => p.TurnOff

def Phone.applyToggles (p : Phone) : List Toggle → Phone
  | [] => p
  | t :: ts => ((p.applyToggle t).1).applyToggles ts

/-- Emissions of two consecutive `TurnOn` calls starting from `p`. -/
def Phone.turnOnTwiceOut (p : Phone) : List String :=
  p.TurnOn.2 ++ p.TurnOn.1.TurnOn.2

/-- Emissions of two consecutive `TurnOff` calls starting from `p`. -/
def Phone.turnOffTwiceOut (p : Phone) : List String :=
  p.TurnOff.2 ++ p.TurnOff.1.TurnOff.2

/-! Composite demo, pure tree model. -/

inductive Soldier where
  | division (name : String) (brigades : List Soldier)
  | brigade (name : String) (platoons : List Soldier)
  | platoon (name : String) (squads : List Soldier)
  | squad (name : String) (enlistees : List Soldier)
  | enlisted (name : String)

def NewDivision (name : String) : Soldier :=
  .division name []

def NewBrigade (name : String) : Soldier :=
  .brigade name []

def NewPlatoon (name : String) : Soldier :=
  .platoon name []

def NewSquad (name : String) : Soldier :=
  .squad name []

def NewEnlisted (name : String) : Soldier :=
  .enlisted name

/-- Variadic `Add`: containers append, the leaf discards its arguments. -/
def Soldier.Add : Soldier → List Soldier → Soldier
  | .division n cs, xs => .division n (cs ++ xs)
  | .brigade n cs, xs => .brigade n (cs ++ xs)
  | .platoon n cs, xs => .platoon n (cs ++ xs)
  | .squad n cs, xs => .squad n (cs ++ xs)
  | .enlisted n, _ => .enlisted n

mutual
def Soldier.Brief : Soldier → String → List String
  | .division _ cs, orders =>
      briefList cs orders ++ ["Briefing " ++ toString cs.length ++ " Brigades"]
  | .brigade _ cs, orders =>
      briefList cs orders ++ ["Briefing " ++ toString cs.length ++ " Platoons"]
  | .platoon _ cs, orders =>
      briefList cs orders ++ ["Briefing " ++ toString cs.length ++ " Squads"]
  | .squad _ cs, orders =>
      briefList cs orders ++ ["Briefing " ++ toString cs.length ++ " Enlistees"]
  | .enlisted _, orders => [orders]

def briefList : List Soldier → String → List String
  | [], _ => []
  | c :: cs, orders => c.Brief orders ++ briefList cs orders
end

def Soldier.children : Soldier → List Soldier
  | .division _ cs => cs
  | .brigade _ cs => cs
  | .platoon _ cs => cs
  | .squad _ cs => cs
  | .enlisted _ => []

/-- The noun used in a container's summary line; empty for the leaf. -/
def Soldier.label : Soldier → String
  | .division _ _ => "Brigades"
  | .brigade _ _ => "Platoons"
  | .platoon _ _ => "Squads"
  | .squad _ _ => "Enlistees"
  | .enlisted _ => ""

def Soldier.isContainer : Soldier → Bool
  | .enlisted _ => false
  | _ => true

/-- One printed line, tagged with its provenance: a leaf repeating the
order, or a container's summary. -/
inductive Notice where
  | order (s : String)
  | summary (s : String)
deriving DecidableEq, Repr

def Notice.render : Notice → String
  | .order s => s
  | .summary s => s

def Notice.isOrder : Notice → Bool
  | .order _ => true
  | .summary _ => false

mutual
def Soldier.BriefN : Soldier → String → List Notice
  | .division _ cs, orders =>
      briefNList cs orders ++ [.summary ("Briefing " ++ toString cs.length ++ " Brigades")]
  | .brigade _ cs, orders =>
      briefNList cs orders ++ [.summary ("Briefing " ++ toString cs.length ++ " Platoons")]
  | .platoon _ cs, orders =>
      briefNList cs orders ++ [.summary ("Briefing " ++ toString cs.length ++ " Squads")]
  | .squad _ cs, orders =>
      briefNList cs orders ++ [.summary ("Briefing " ++ toString cs.length ++ " Enlistees")]
  | .enlisted _, orders => [.order orders]

def briefNList : List Soldier → String → List Notice
  | [], _ => []
  | c :: cs, orders => c.BriefN orders ++ briefNList cs orders
end

mutual
def Soldier.leafCount : Soldier → Nat
  | .division _ cs => leafCountList cs
  | .brigade _ cs => leafCountList cs
  | .platoon _ cs => leafCountList cs
  | .squad _ cs => leafCountList cs
  | .enlisted _ => 1

def leafCountList : List Soldier → Nat
  | [] => 0
  | c :: cs => c.leafCount + leafCountList cs
end

mutual
/-- Number of stack frames `Brief` needs on this tree: one for the node
plus the deepest child, i.e. the tree height plus one. -/
def Soldier.depth : Soldier → Nat
  | .division _ cs => depthList cs + 1
  | .brigade _ cs => depthList cs + 1
  | .platoon _ cs => depthList cs + 1
  | .squad _ cs => depthList cs + 1
  | .enlisted _ => 1

def depthList : List Soldier → Nat
  | [] => 0
  | c :: cs => max c.depth (depthList cs)
end

/-! The spec's example scenario, built through the public constructors and
`Add` exactly as a driver program would. -/

def exampleSquad : Soldier :=
  (NewSquad "alpha").Add [NewEnlisted "Smith", NewEnlisted "Jones"]

def examplePlatoon : Soldier :=
  (NewPlatoon "1").Add [exampleSquad]

def exampleBrigade : Soldier :=
  (NewBrigade "A").Add [examplePlatoon]

def exampleDivision : Soldier :=
  (NewDivision "1st").Add [exampleBrigade]

/-! Composite demo, heap model.  Go's composite nodes are pointers, so a
node can be added to several containers, or to itself; the heap model
makes such aliasing expressible.  A store is the list of allocated nodes,
a node is addressed by its allocation index. -/

namespace Heap

inductive Kind where
  | division
  | brigade
  | platoon
  | squad
  | enlisted
deriving DecidableEq, Repr

/-- The noun used in the summary line printed by a node of this kind. -/
def Kind.label : Kind → String
  | .division => "Brigades"
  | .brigade => "Platoons"
  | .platoon => "Squads"
  | .squad => "Enlistees"
  | .enlisted => ""

structure Node where
  kind : Kind
  name : String
  children : List Nat
deriving DecidableEq, Repr

abbrev Store := List Node

/-- Allocate a fresh node; returns the new store and the node's address. -/
def newNode (st : Store) (k : Kind) (name : String) : Store × Nat :=
  (st ++ [⟨k, name, []⟩], st.length)

def NewDivision (st : Store) (name : String) : Store × Nat :=
  newNode st .division name

def NewBrigade (st : Store) (name : String) : Store × Nat :=
  newNode st .brigade name

def NewPlatoon (st : Store) (name : String) : Store × Nat :=
  newNode st .platoon name

def NewSquad (st : Store) (name : String) : Store × Nat :=
  newNode st .squad name

def NewEnlisted (st : Store) (name : String) : Store × Nat :=
  newNode st .enlisted name

def childrenOf (st : Store) (id : Nat) : List Nat :=
  match st.get? id with
  | some nd => nd.children
  | none => []

def containerAt (st : Store) (id : Nat) : Bool :=
  match st.get? id with
  | some nd =>
      match nd.kind with
      | .enlisted => false
      | _ => true
  | none => false

/-- Variadic `Add` on the heap: a container appends the given addresses to
its child list (no identity, duplicate or cycle check); the leaf discards
them. -/
def Add (st : Store) (id : Nat) (es : List Nat) : Store :=
  match st.get? id with
  | none => st
  | some nd =>
      match nd.kind with
      | .enlisted => st
      | _ => st.set id ⟨nd.kind, nd.name, nd.children ++ es⟩

/-- Evaluate `f` on each element, succeeding only if every call does. -/
def allSome (f : α → Option β) : List α → Option (List β)
  | [] => some []
  | a :: as =>
    match f a, allSome f as with
    | some b, some bs => some (b :: bs)
    | _, _ => none

/-- `Brief` on the heap, with explicit fuel bounding the recursion depth;
`none` means the call stack would exceed the fuel (or an address was
dangling, which stores built through the public API never produce). -/
def Brief : Nat → Store → Nat → String → Option (List String)
  | 0, _, _, _ => none
  | fuel+1, st, id, orders =>
    match st.get? id with
    | none => none
    | some nd =>
      match nd.kind with
      | .enlisted => some [orders]
      | k =>
        match allSome (fun c => Brief fuel st c orders) nd.children with
        | none => none
        | some outs =>
            some (outs.flatten ++ ["Briefing " ++ toString nd.children.length ++ " " ++ k.label])

def mkSoldier : Kind → String → List Soldier → Soldier
  | .division, n, cs => .division n cs
  | .brigade, n, cs => .brigade n cs
  | .platoon, n, cs => .platoon n cs
  | .squad, n, cs => .squad n cs
  | .enlisted, n, _ => .enlisted n

/-- Unfold the heap node at `id` into a pure tree, if the structure below
it is tree-shaped within the given depth. -/
def resolve : Nat → Store → Nat → Option Soldier
  | 0, _, _ => none
  | fuel+1, st, id =>
    match st.get? id with
    | none => none
    | some nd =>
      match nd.kind with
      | .enlisted => some (.enlisted nd.name)
      | k =>
        match allSome (fun c => resolve fuel st c) nd.children with
        | none => none
        | some ts => some (mkSoldier k nd.name ts)

/-- Direct child relation of the heap: `b` occurs in `a`'s child list. -/
def step (st : Store) (a b : Nat) : Prop :=
  b ∈ childrenOf st a

/-- `a` reaches `b` by following zero or more child edges. -/
def Reaches (st : Store) (a b : Nat) : Prop :=
  Relation.ReflTransGen (step st) a b

/-- `a` is a strict ancestor of `b`: at least one child edge is followed. -/
def IsAncestor (st : Store) (a b : Nat) : Prop :=
  Relation.TransGen (step st) a b

/-- No node of the store is its own strict ancestor. -/
def Acyclic (st : Store) : Prop :=
  ∀ n, ¬ IsAncestor st n n

end Heap

/-! Concrete heap stores used below, each built through the public
constructors and `Add` exactly as a Go driver could. -/

/-- The store obtained by `d := NewDivision("1st"); d.Add(d)`. -/
def cycleStore : Heap.Store :=
  let d := Heap.NewDivision [] "1st"
  Heap.Add d.1 d.2 [d.2]

/-- A division and an enlisted soldier, not yet linked. -/
def freshPairStore : Heap.Store :=
  (Heap.NewEnlisted (Heap.NewDivision [] "1st").1 "Smith").1

/-- The store of `s := NewSquad("alpha"); e := NewEnlisted("Smith");
s.Add(e, e)`: the same enlisted node appended twice to one squad. -/
def dupStore : Heap.Store :=
  let s := Heap.NewSquad [] "alpha"
  let e := Heap.NewEnlisted s.1 "Smith"
  Heap.Add e.1 s.2 [e.2, e.2]

/-- One enlisted node shared by two squads under a common division. -/
def sharedStore : Heap.Store :=
  let d := Heap.NewDivision [] "1st"
  let q1 := Heap.NewSquad d.1 "first"
  let q2 := Heap.NewSquad q1.1 "second"
  let e := Heap.NewEnlisted q2.1 "Smith"
  let t1 := Heap.Add e.1 q1.2 [e.2]
  let t2 := Heap.Add t1 q2.2 [e.2]
  Heap.Add t2 d.2 [q1.2, q2.2]

/-- The spec's example scenario allocated on the heap. -/
def heapExampleStore : Heap.Store :=
  let d := Heap.NewDivision [] "1st"
  let b := Heap.NewBrigade d.1 "A"
  let p := Heap.NewPlatoon b.1 "1"
  let s := Heap.NewSquad p.1 "alpha"
  let e1 := Heap.NewEnlisted s.1 "Smith"
  let e2 := Heap.NewEnlisted e1.1 "Jones"
  let t1 := Heap.Add e2.1 s.2 [e1.2, e2.2]
  let t2 := Heap.Add t1 p.2 [s.2]
  let t3 := Heap.Add t2 b.2 [p.2]
  Heap.Add t3 d.2 [b.2]

/-! Helper lemmas on the pure tree model. -/

theorem briefList_eq_flatten (l : List Soldier) (o : String) :
    briefList l o = (l.map (fun c => c.Brief o)).flatten := by
  induction l with
  | nil => simp [briefList]
  | cons c cs ih => simp [briefList, ih]

mutual
theorem Soldier.briefN_render (t : Soldier) (o : String) :
    t.Brief o = (t.BriefN o).map Notice.render := by
  cases t with
  | division n cs => simp [Soldier.Brief, Soldier.BriefN, briefNList_render cs o, Notice.render]
  | brigade n cs => simp [Soldier.Brief, Soldier.BriefN, briefNList_render cs o, Notice.render]
  | platoon n cs => simp [Soldier.Brief, Soldier.BriefN, briefNList_render cs o, Notice.render]
  | squad n cs => simp [Soldier.Brief, Soldier.BriefN, briefNList_render cs o, Notice.render]
  | enlisted n => simp [Soldier.Brief, Soldier.BriefN, Notice.render]

theorem briefNList_render (l : List Soldier) (o : String) :
    briefList l o = (briefNList l o).map Notice.render := by
  cases l with
  | nil => simp [briefList, briefNList]
  | cons c cs =>
      simp [briefList, briefNList, Soldier.briefN_render c o, briefNList_render cs o]
end

mutual
theorem Soldier.briefN_orders (t : Soldier) (o : String) :
    (t.BriefN o).filter Notice.isOrder = List.replicate t.leafCount (Notice.order o) := by
  cases t with
  | division n cs =>
      simp [Soldier.BriefN, Soldier.leafCount, List.filter_append, Notice.isOrder,
        briefNList_orders cs o]
  | brigade n cs =>
      simp [Soldier.BriefN, Soldier.leafCount, List.filter_append, Notice.isOrder,
        briefNList_orders cs o]
  | platoon n cs =>
      simp [Soldier.BriefN, Soldier.leafCount, List.filter_append, Notice.isOrder,
        briefNList_orders cs o]
  | squad n cs =>
      simp [Soldier.BriefN, Soldier.leafCount, List.filter_append, Notice.isOrder,
        briefNList_orders cs o]
  | enlisted n => simp [Soldier.BriefN, Soldier.leafCount, Notice.isOrder]

theorem briefNList_orders (l : List Soldier) (o : String) :
    (briefNList l o).filter Notice.isOrder
      = List.replicate (leafCountList l) (Notice.order o) := by
  cases l with
  | nil => simp [briefNList, leafCountList]
  | cons c cs =>
      rw [show briefNList (c :: cs) o = c.BriefN o ++ briefNList cs o from rfl,
        show leafCountList (c :: cs) = c.leafCount + leafCountList cs from rfl,
        List.filter_append, Soldier.briefN_orders c o, briefNList_orders cs o,
        List.replicate_add]
end

/-- C1: calling `Brief(order)` on a container briefs each of its children in
the exact order they were added (`Add` appends to the child list, and the
output is the concatenation of the children's recursive outputs in
child-list order), and the container's own summary line, which reports the
count of its direct children, is emitted strictly after all of the
children's recursive notifications. -/
theorem container_brief_children_first (c : Soldier) (o : String) (xs : List Soldier)
    (h : c.isContainer = true) :
    c.Brief o = (c.children.map (fun ch => ch.Brief o)).flatten
        ++ ["Briefing " ++ toString c.children.length ++ (" " ++ c.label)]
    ∧ (c.Add xs).children = c.children ++ xs := by
  cases c with
  | division n cs =>
      refine ⟨?_, by simp [Soldier.Add, Soldier.children]⟩
      show briefList cs o ++ _ = _
      rw [briefList_eq_flatten]
      rfl
  | brigade n cs =>
      refine ⟨?_, by simp [Soldier.Add, Soldier.children]⟩
      show briefList cs o ++ _ = _
      rw [briefList_eq_flatten]
      rfl
  | platoon n cs =>
      refine ⟨?_, by simp [Soldier.Add, Soldier.children]⟩
      show briefList cs o ++ _ = _
      rw [briefList_eq_flatten]
      rfl
  | squad n cs =>
      refine ⟨?_, by simp [Soldier.Add, Soldier.children]⟩
      show briefList cs o ++ _ = _
      rw [briefList_eq_flatten]
      rfl
  | enlisted n => simp [Soldier.isContainer] at h

/-- C1 witness: the containment law evaluated on the spec's example
division with one extra enlistee. -/
theorem container_brief_children_first_witness :
    exampleDivision.Brief "Move out"
        = (exampleDivision.children.map (fun ch => ch.Brief "Move out")).flatten
          ++ ["Briefing " ++ toString exampleDivision.children.length
                ++ (" " ++ exampleDivision.label)]
    ∧ (exampleDivision.Add [NewEnlisted "Doe"]).children
        = exampleDivision.children ++ [NewEnlisted "Doe"] :=
  container_brief_children_first exampleDivision "Move out" [NewEnlisted "Doe"] rfl

/-- C2: for any tree, `Brief(order)` emits exactly one leaf notification per
leaf of the tree, each being the literal order string: the printed lines
are the rendering of the tagged notifications, and the leaf-tagged ones
among them are exactly `leafCount` copies of the order. -/
theorem brief_one_notification_per_leaf (t : Soldier) (o : String) :
    t.Brief o = (t.BriefN o).map Notice.render
    ∧ (t.BriefN o).filter Notice.isOrder = List.replicate t.leafCount (Notice.order o) :=
  ⟨t.briefN_render o, t.briefN_orders o⟩

/-- C3: the spec's example scenario emits exactly the six lines, in order:
the two orders, then the squad, platoon, brigade and division summaries. -/
theorem example_scenario_brief :
    exampleDivision.Brief "Move out"
      = ["Move out", "Move out", "Briefing 2 Enlistees", "Briefing 1 Squads",
         "Briefing 1 Platoons", "Briefing 1 Brigades"] := rfl

/-- C4 counterexample: starting from a device that is already powered on
(reachable by one `TurnOn` from the constructed state), two consecutive
`TurnOn` calls emit no notification at all, not exactly one. -/
theorem power_on_twice_counterexample :
    NewAndroid.TurnOn.1.turnOnTwiceOut = []
    ∧ ¬ NewAndroid.TurnOn.1.turnOnTwiceOut.length = 1 := by
  refine ⟨rfl, ?_⟩
  intro h
  simp [Phone.turnOnTwiceOut, Phone.TurnOn, NewAndroid] at h

/-- C4 amended: a power-toggle notification is emitted on each
state-changing call only, never on an idempotent no-op; hence two
consecutive `TurnOn` calls emit exactly one notification when the device
was not already on (in particular from the constructed "off" state) and
zero when it was, and symmetrically for `TurnOff`; after the double call
the state is the target state. -/
theorem power_toggle_emits_on_change (p : Phone) :
    p.turnOnTwiceOut.length = (if p.status = "on" then 0 else 1)
    ∧ p.turnOffTwiceOut.length = (if p.status = "off" then 0 else 1)
    ∧ p.TurnOn.1.status = "on" ∧ p.TurnOff.1.status = "off" := by
  by_cases h1 : p.status = "on" <;> by_cases h2 : p.status = "off" <;>
    simp [Phone.turnOnTwiceOut, Phone.turnOffTwiceOut, Phone.TurnOn, Phone.TurnOff, h1, h2]

/-- C7: all operations are total functions in this model (they are plain
definitions returning values, with no error component); in particular
`Brief` on a container with zero children succeeds and emits exactly one
notification, the summary reporting a count of 0, and `Add` with zero
children succeeds and leaves every node unchanged. -/
theorem operations_total (n o : String) (c : Soldier) :
    (NewDivision n).Brief o = ["Briefing 0 Brigades"]
    ∧ (NewBrigade n).Brief o = ["Briefing 0 Platoons"]
    ∧ (NewPlatoon n).Brief o = ["Briefing 0 Squads"]
    ∧ (NewSquad n).Brief o = ["Briefing 0 Enlistees"]
    ∧ c.Add [] = c := by
  refine ⟨rfl, rfl, rfl, rfl, ?_⟩
  cases c <;> simp [Soldier.Add]

/-- C8: the os identity is fixed at construction and never modified: after
any sequence of `TurnOn`/`TurnOff` calls, `GetOS` returns the same string
as on the fresh device, and the two constructed variants report their
respective fixed identities. -/
theorem getOS_fixed_under_toggles (p : Phone) (ts : List Toggle) :
    (p.applyToggles ts).GetOS = p.GetOS
    ∧ (NewAndroid.applyToggles ts).GetOS = "android"
    ∧ (NewGoogle.applyToggles ts).GetOS = "google" := by
  have key : ∀ (q : Phone) (us : List Toggle), (q.applyToggles us).os = q.os := by
    intro q us
    induction us generalizing q with
    | nil => rfl
    | cons u us ih =>
        cases u with
        | powerOn =>
            by_cases h : q.status = "on" <;>
              simp [Phone.applyToggles, Phone.applyToggle, Phone.TurnOn, h, ih]
        | powerOff =>
            by_cases h : q.status = "off" <;>
              simp [Phone.applyToggles, Phone.applyToggle, Phone.TurnOff, h, ih]
  exact ⟨key p ts, key NewAndroid ts, key NewGoogle ts⟩

/-- C9: `Add` on a leaf accepts and discards its arguments: the leaf is
unchanged, and its behavior under a subsequent `Brief` is the same as
before, emitting the literal order. -/
theorem leaf_add_noop (n o : String) (xs : List Soldier) :
    (NewEnlisted n).Add xs = NewEnlisted n
    ∧ ((NewEnlisted n).Add xs).Brief o = [o] :=
  ⟨rfl, rfl⟩

/-! Helper lemmas on the heap model. -/

theorem heap_childrenOf_Add (st : Heap.Store) (id : Nat) (es : List Nat) (a : Nat) :
    Heap.childrenOf (Heap.Add st id es) a =
      if a = id ∧ Heap.containerAt st id = true then Heap.childrenOf st a ++ es
      else Heap.childrenOf st a := by
  unfold Heap.Add Heap.containerAt
  cases hget : st.get? id with
  | none => simp
  | some nd =>
      obtain ⟨k, nm, ch⟩ := nd
      have hlt : id < st.length := by
        rcases List.get?_eq_some.mp hget with ⟨hl, _⟩
        exact hl
      rw [List.get?_eq_getElem?] at hget
      have hset : ∀ b : Heap.Node, a ≠ id →
          (List.set st id b)[a]? = st[a]? := by
        intro b hne
        rw [List.getElem?_set_ne (fun h => hne h.symm)]
      have hseteq : ∀ b : Heap.Node, (List.set st id b)[id]? = some b := by
        intro b
        rw [List.getElem?_set_eq_of_lt b hlt]
      cases k with
      | enlisted => simp
      | division =>
          by_cases ha : a = id
          · subst ha
            simp [Heap.childrenOf, hseteq, hget]
          · simp [Heap.childrenOf, hset _ ha, ha]
      | brigade =>
          by_cases ha : a = id
          · subst ha
            simp [Heap.childrenOf, hseteq, hget]
          · simp [Heap.childrenOf, hset _ ha, ha]
      | platoon =>
          by_cases ha : a = id
          · subst ha
            simp [Heap.childrenOf, hseteq, hget]
          · simp [Heap.childrenOf, hset _ ha, ha]
      | squad =>
          by_cases ha : a = id
          · subst ha
            simp [Heap.childrenOf, hseteq, hget]
          · simp [Heap.childrenOf, hset _ ha, ha]

/-- C10: `Add` performs no identity or duplicate check — it appends the
given addresses to a container's child list unconditionally — so the same
node may be appended twice to one container (`dupStore`) or to two
different containers (`sharedStore`), and `Brief` on the common ancestor
emits that node's notifications once per occurrence in the traversal, not
once per distinct node. -/
theorem add_no_identity_check (st : Heap.Store) (id : Nat) (es : List Nat) :
    Heap.childrenOf (Heap.Add st id es) id
      = (if Heap.containerAt st id then Heap.childrenOf st id ++ es
         else Heap.childrenOf st id)
    ∧ Heap.Brief 2 dupStore 0 "Move out"
        = some ["Move out", "Move out", "Briefing 2 Enlistees"]
    ∧ Heap.Brief 3 sharedStore 0 "Move out"
        = some ["Move out", "Briefing 1 Enlistees", "Move out", "Briefing 1 Enlistees",
                "Briefing 2 Brigades"] := by
  refine ⟨?_, rfl, rfl⟩
  rw [heap_childrenOf_Add st id es id]
  by_cases h : Heap.containerAt st id = true <;> simp [h]

theorem heap_step_Add (st : Heap.Store) (id : Nat) (es : List Nat) (a b : Nat) :
    Heap.step (Heap.Add st id es) a b ↔
      Heap.step st a b ∨ (a = id ∧ Heap.containerAt st id = true ∧ b ∈ es) := by
  unfold Heap.step
  rw [heap_childrenOf_Add]
  by_cases h : a = id ∧ Heap.containerAt st id = true
  · rw [if_pos h]
    rcases h with ⟨ha, hc⟩
    subst ha
    rw [List.mem_append]
    constructor
    · rintro (hb | hb)
      · exact Or.inl hb
      · exact Or.inr ⟨rfl, hc, hb⟩
    · rintro (hb | ⟨h1, h2, hb⟩)
      · exact Or.inl hb
      · exact Or.inr hb
  · rw [if_neg h]
    constructor
    · exact fun hs => Or.inl hs
    · rintro (hs | ⟨ha, hc, hb⟩)
      · exact hs
      · exact absurd ⟨ha, hc⟩ h

theorem heap_reaches_target_of_Add (st : Heap.Store) (id : Nat) (es : List Nat) (a : Nat)
    (h : Relation.ReflTransGen (Heap.step (Heap.Add st id es)) a id) :
    Relation.ReflTransGen (Heap.step st) a id := by
  induction h using Relation.ReflTransGen.head_induction_on with
  | refl => exact Relation.ReflTransGen.refl
  | head h1 h2 ih =>
      rcases (heap_step_Add st id es _ _).mp h1 with hold | ⟨ha, hc, hb⟩
      · exact Relation.ReflTransGen.head hold ih
      · subst ha
        exact Relation.ReflTransGen.refl

theorem heap_transGen_decompose (st : Heap.Store) (id : Nat) (es : List Nat) (a b : Nat)
    (h : Relation.TransGen (Heap.step (Heap.Add st id es)) a b) :
    Relation.TransGen (Heap.step st) a b
    ∨ (Relation.ReflTransGen (Heap.step (Heap.Add st id es)) a id
        ∧ ∃ e ∈ es, Relation.ReflTransGen (Heap.step (Heap.Add st id es)) e b) := by
  induction h using Relation.TransGen.head_induction_on with
  | base h1 =>
      rcases (heap_step_Add st id es _ _).mp h1 with hold | ⟨ha, hc, hb⟩
      · exact Or.inl (Relation.TransGen.single hold)
      · subst ha
        exact Or.inr ⟨Relation.ReflTransGen.refl, b, hb, Relation.ReflTransGen.refl⟩
  | ih h1 h2 ih2 =>
      rcases ih2 with hl | ⟨hcid, e, he, heb⟩
      · rcases (heap_step_Add st id es _ _).mp h1 with hold | ⟨ha, hc, hcin⟩
        · exact Or.inl (Relation.TransGen.head hold hl)
        · subst ha
          exact Or.inr ⟨Relation.ReflTransGen.refl, _, hcin, h2.to_reflTransGen⟩
      · exact Or.inr ⟨Relation.ReflTransGen.head h1 hcid, e, he, heb⟩

/-- C5 amended: structures built through the constructors are acyclic, and
`Add` preserves acyclicity whenever none of the added children can reach
the receiver (in particular when they are freshly constructed nodes); but
`Add` itself performs no check, so adding a node that reaches the receiver
— such as the receiver itself — creates a cycle, and the same node may be
placed under two containers, so exclusive ownership is not enforced
either. -/
theorem add_preserves_acyclicity (st : Heap.Store) (id : Nat) (es : List Nat)
    (hst : Heap.Acyclic st) (hes : ∀ e ∈ es, ¬ Heap.Reaches st e id) :
    Heap.Acyclic (Heap.Add st id es) := by
  intro n hcyc
  have hcyc2 : Relation.TransGen (Heap.step (Heap.Add st id es)) n n := hcyc
  rcases heap_transGen_decompose st id es n n hcyc2 with hl | ⟨hnid, e, he, hen⟩
  · exact hst n hl
  · exact hes e he (heap_reaches_target_of_Add st id es e (hen.trans hnid))

/-- C5 counterexample: the structure reached by `d := NewDivision("1st");
d.Add(d)` — one constructor call and one `Add` call — has the division as
its own direct ancestor, so not every reachable structure is an acyclic
tree and `Add` does not in general preserve the invariant. -/
theorem add_self_cycle_counterexample : Heap.IsAncestor cycleStore 0 0 :=
  Relation.TransGen.single ((by decide : (0 : Nat) ∈ Heap.childrenOf cycleStore 0))

/-- C5 witness: linking the fresh enlisted node 1 under the empty division
node 0 of the two-node store keeps the store acyclic. -/
theorem add_preserves_acyclicity_witness :
    Heap.Acyclic (Heap.Add freshPairStore 0 [1]) := by
  have hnil : ∀ a, Heap.childrenOf freshPairStore a = [] := by
    intro a
    match a with
    | 0 => rfl
    | 1 => rfl
    | n+2 => rfl
  have hnostep : ∀ a b, ¬ Heap.step freshPairStore a b := by
    intro a b hb
    have hb2 : b ∈ Heap.childrenOf freshPairStore a := hb
    rw [hnil a] at hb2
    simp at hb2
  refine add_preserves_acyclicity freshPairStore 0 [1] ?_ ?_
  · intro n hn
    have hn2 : Relation.TransGen (Heap.step freshPairStore) n n := hn
    cases hn2 with
    | single h => exact hnostep _ _ h
    | tail _ h => exact hnostep _ _ h
  · intro e he hr
    have he1 : e = 1 := by simpa using he
    subst he1
    have hr2 : Relation.ReflTransGen (Heap.step freshPairStore) 1 0 := hr
    rcases Relation.ReflTransGen.cases_head hr2 with heq | ⟨c, hc, h2⟩
    · exact absurd heq (by decide)
    · exact hnostep _ _ hc

theorem cycleStore_eq : cycleStore = [⟨Heap.Kind.division, "1st", [0]⟩] := rfl

theorem heap_Brief_cycleStore (fuel : Nat) (o : String) :
    Heap.Brief fuel cycleStore 0 o = none := by
  induction fuel with
  | zero => rfl
  | succ f ih =>
      rw [cycleStore_eq] at ih ⊢
      simp [Heap.Brief, Heap.allSome, ih]

/-- C6 counterexample: on the self-cycle reached by `d := NewDivision("1st");
d.Add(d)`, `Brief` does not terminate: it fails to complete within every
recursion-depth budget. -/
theorem brief_diverges_on_cycle :
    ¬ ∃ fuel, (Heap.Brief fuel cycleStore 0 "Move out").isSome = true := by
  rintro ⟨fuel, h⟩
  rw [heap_Brief_cycleStore fuel "Move out"] at h
  simp at h

theorem heap_allSome_cons {f : α → Option β} {a : α} {as : List α} {bs : List β}
    (h : Heap.allSome f (a :: as) = some bs) :
    ∃ b bs2, f a = some b ∧ Heap.allSome f as = some bs2 ∧ bs = b :: bs2 := by
  unfold Heap.allSome at h
  cases hfa : f a with
  | none => rw [hfa] at h; simp at h
  | some b =>
      cases has : Heap.allSome f as with
      | none => rw [hfa, has] at h; simp at h
      | some bs2 =>
          rw [hfa, has] at h
          simp at h
          exact ⟨b, bs2, rfl, rfl, h.symm⟩

theorem heap_allSome_cons_eq {f : α → Option β} {a : α} {as : List α} {b : β} {bs : List β}
    (hfa : f a = some b) (has : Heap.allSome f as = some bs) :
    Heap.allSome f (a :: as) = some (b :: bs) := by
  unfold Heap.allSome
  rw [hfa, has]

theorem heap_allSome_mono {f g : α → Option β}
    (hfg : ∀ a b, f a = some b → g a = some b) :
    ∀ (l : List α) (bs : List β), Heap.allSome f l = some bs → Heap.allSome g l = some bs := by
  intro l
  induction l with
  | nil => intro bs h; exact h
  | cons a as ih =>
      intro bs h
      rcases heap_allSome_cons h with ⟨b, bs2, hfa, has, rfl⟩
      exact heap_allSome_cons_eq (hfg a b hfa) (ih bs2 has)

theorem heap_allSome_length {f : α → Option β} :
    ∀ {l : List α} {bs : List β}, Heap.allSome f l = some bs → l.length = bs.length := by
  intro l
  induction l with
  | nil =>
      intro bs h
      unfold Heap.allSome at h
      simp at h
      rw [h]
      rfl
  | cons a as ih =>
      intro bs h
      rcases heap_allSome_cons h with ⟨b, bs2, hfa, has, rfl⟩
      simp [ih has]

theorem heap_Brief_dangling (fuel : Nat) (st : Heap.Store) (id : Nat) (o : String)
    (h : st.get? id = none) : Heap.Brief (fuel+1) st id o = none := by
  unfold Heap.Brief
  rw [h]

theorem heap_Brief_enlisted (fuel : Nat) (st : Heap.Store) (id : Nat) (o nm : String)
    (ch : List Nat) (h : st.get? id = some ⟨Heap.Kind.enlisted, nm, ch⟩) :
    Heap.Brief (fuel+1) st id o = some [o] := by
  unfold Heap.Brief
  rw [h]

theorem heap_Brief_container (fuel : Nat) (st : Heap.Store) (id : Nat) (o : String)
    (k : Heap.Kind) (nm : String) (ch : List Nat)
    (h : st.get? id = some ⟨k, nm, ch⟩) (hk : k ≠ Heap.Kind.enlisted) :
    Heap.Brief (fuel+1) st id o =
      match Heap.allSome (fun c => Heap.Brief fuel st c o) ch with
      | none => none
      | some outs =>
          some (outs.flatten ++ ["Briefing " ++ toString ch.length ++ " " ++ k.label]) := by
  conv_lhs => unfold Heap.Brief
  rw [h]
  cases k with
  | enlisted => exact absurd rfl hk
  | division => rfl
  | brigade => rfl
  | platoon => rfl
  | squad => rfl

theorem heap_resolve_dangling (fuel : Nat) (st : Heap.Store) (id : Nat)
    (h : st.get? id = none) : Heap.resolve (fuel+1) st id = none := by
  unfold Heap.resolve
  rw [h]

theorem heap_resolve_enlisted (fuel : Nat) (st : Heap.Store) (id : Nat) (nm : String)
    (ch : List Nat) (h : st.get? id = some ⟨Heap.Kind.enlisted, nm, ch⟩) :
    Heap.resolve (fuel+1) st id = some (.enlisted nm) := by
  unfold Heap.resolve
  rw [h]

theorem heap_resolve_container (fuel : Nat) (st : Heap.Store) (id : Nat)
    (k : Heap.Kind) (nm : String) (ch : List Nat)
    (h : st.get? id = some ⟨k, nm, ch⟩) (hk : k ≠ Heap.Kind.enlisted) :
    Heap.resolve (fuel+1) st id =
      match Heap.allSome (fun c => Heap.resolve fuel st c) ch with
      | none => none
      | some ts => some (Heap.mkSoldier k nm ts) := by
  conv_lhs => unfold Heap.resolve
  rw [h]
  cases k with
  | enlisted => exact absurd rfl hk
  | division => rfl
  | brigade => rfl
  | platoon => rfl
  | squad => rfl

theorem heap_Brief_mono :
    ∀ (f g : Nat) (st : Heap.Store) (id : Nat) (o : String) (r : List String),
      f ≤ g → Heap.Brief f st id o = some r → Heap.Brief g st id o = some r := by
  intro f
  induction f with
  | zero =>
      intro g st id o r hle h
      exact absurd h (by simp [Heap.Brief])
  | succ f ih =>
      intro g st id o r hle h
      obtain ⟨g2, rfl⟩ : ∃ g2, g = g2 + 1 := ⟨g - 1, by omega⟩
      have hfg : f ≤ g2 := by omega
      cases hget : st.get? id with
      | none =>
          rw [heap_Brief_dangling f st id o hget] at h
          cases h
      | some nd =>
          obtain ⟨k, nm, ch⟩ := nd
          by_cases hk : k = Heap.Kind.enlisted
          · subst hk
            rw [heap_Brief_enlisted f st id o nm ch hget] at h
            rw [heap_Brief_enlisted g2 st id o nm ch hget]
            exact h
          · rw [heap_Brief_container f st id o k nm ch hget hk] at h
            rw [heap_Brief_container g2 st id o k nm ch hget hk]
            cases hall : Heap.allSome (fun c => Heap.Brief f st c o) ch with
            | none =>
                rw [hall] at h
                simp at h
            | some outs =>
                rw [hall] at h
                rw [heap_allSome_mono (fun a b hb => ih g2 st a o b hfg hb) ch outs hall]
                exact h

theorem heap_mkSoldier_depth (k : Heap.Kind) (nm : String) (ts : List Soldier)
    (hk : k ≠ Heap.Kind.enlisted) :
    (Heap.mkSoldier k nm ts).depth = depthList ts + 1 := by
  cases k with
  | enlisted => exact absurd rfl hk
  | division => rfl
  | brigade => rfl
  | platoon => rfl
  | squad => rfl

theorem heap_mkSoldier_Brief (k : Heap.Kind) (nm : String) (ts : List Soldier) (o : String)
    (hk : k ≠ Heap.Kind.enlisted) :
    (Heap.mkSoldier k nm ts).Brief o
      = briefList ts o ++ ["Briefing " ++ toString ts.length ++ " " ++ k.label] := by
  cases k with
  | enlisted => exact absurd rfl hk
  | division =>
      conv_rhs => rw [String.append_assoc]
      rfl
  | brigade =>
      conv_rhs => rw [String.append_assoc]
      rfl
  | platoon =>
      conv_rhs => rw [String.append_assoc]
      rfl
  | squad =>
      conv_rhs => rw [String.append_assoc]
      rfl

theorem heap_resolve_spec :
    ∀ (fuel : Nat) (st : Heap.Store) (id : Nat) (t : Soldier),
      Heap.resolve fuel st id = some t →
      (∀ o, Heap.Brief t.depth st id o = some (t.Brief o)) ∧ t.depth ≤ fuel := by
  intro fuel
  induction fuel with
  | zero =>
      intro st id t h
      exact absurd h (by simp [Heap.resolve])
  | succ f ih =>
      intro st id t h
      have listpart : ∀ (l : List Nat) (ts : List Soldier),
          Heap.allSome (fun c => Heap.resolve f st c) l = some ts →
          (∀ o, Heap.allSome (fun c => Heap.Brief (depthList ts) st c o) l
              = some (ts.map (fun u => u.Brief o)))
          ∧ depthList ts ≤ f := by
        intro l
        induction l with
        | nil =>
            intro ts hts
            have hts2 : some ([] : List Soldier) = some ts := hts
            injection hts2 with hts3
            subst hts3
            exact ⟨fun o => rfl, Nat.zero_le f⟩
        | cons c cs ihl =>
            intro ts hts
            rcases heap_allSome_cons hts with ⟨u, us, hc, hcs, rfl⟩
            rcases ihl us hcs with ⟨hbrief, hdep⟩
            rcases ih st c u hc with ⟨hbu, hdu⟩
            have hmaxl : u.depth ≤ depthList (u :: us) := le_max_left _ _
            have hmaxr : depthList us ≤ depthList (u :: us) := le_max_right _ _
            refine ⟨?_, max_le hdu hdep⟩
            intro o
            have h1 : Heap.Brief (depthList (u :: us)) st c o = some (u.Brief o) :=
              heap_Brief_mono u.depth (depthList (u :: us)) st c o (u.Brief o) hmaxl (hbu o)
            have h2 : Heap.allSome
                (fun c2 => Heap.Brief (depthList (u :: us)) st c2 o) cs
                = some (us.map (fun v => v.Brief o)) :=
              heap_allSome_mono
                (fun a b hb =>
                  heap_Brief_mono (depthList us) (depthList (u :: us)) st a o b hmaxr hb)
                cs (us.map (fun v => v.Brief o)) (hbrief o)
            exact heap_allSome_cons_eq h1 h2
      cases hget : st.get? id with
      | none =>
          rw [heap_resolve_dangling f st id hget] at h
          cases h
      | some nd =>
          obtain ⟨k, nm, ch⟩ := nd
          by_cases hk : k = Heap.Kind.enlisted
          · subst hk
            rw [heap_resolve_enlisted f st id nm ch hget] at h
            injection h with h2
            subst h2
            refine ⟨fun o => ?_, Nat.succ_le_succ (Nat.zero_le f)⟩
            show Heap.Brief (0+1) st id o = some ((Soldier.enlisted nm).Brief o)
            rw [heap_Brief_enlisted 0 st id o nm ch hget]
            rfl
          · rw [heap_resolve_container f st id k nm ch hget hk] at h
            cases hall : Heap.allSome (fun c => Heap.resolve f st c) ch with
            | none =>
                rw [hall] at h
                simp at h
            | some ts =>
                rw [hall] at h
                simp at h
                subst h
                rcases listpart ch ts hall with ⟨hb, hd⟩
                have hlen : ch.length = ts.length := heap_allSome_length hall
                refine ⟨fun o => ?_, ?_⟩
                · rw [heap_mkSoldier_Brief k nm ts o hk, heap_mkSoldier_depth k nm ts hk,
                    heap_Brief_container (depthList ts) st id o k nm ch hget hk, hb o]
                  show some ((ts.map (fun u => u.Brief o)).flatten
                      ++ ["Briefing " ++ toString ch.length ++ " " ++ k.label])
                    = some (briefList ts o ++ ["Briefing " ++ toString ts.length ++ " " ++ k.label])
                  rw [hlen, ← briefList_eq_flatten]
                · rw [heap_mkSoldier_depth k nm ts hk]
                  exact Nat.succ_le_succ hd

/-- C6 amended: `Brief` terminates on every structure whose reachable part
is tree-shaped (every structure `resolve` can unfold to a pure tree `t`
within some budget): a recursion depth of exactly the tree height plus one
(`t.depth`) suffices, never exceeds the resolution budget, and yields the
pure tree's output.  The claim's universal form fails, however: the public
constructors and `Add` also reach cyclic stores, such as `d.Add(d)`, on
which `Brief` completes within no recursion-depth budget at all. -/
theorem brief_terminates_on_tree_shaped (fuel : Nat) (st : Heap.Store) (id : Nat)
    (t : Soldier) (o : String) (h : Heap.resolve fuel st id = some t) :
    Heap.Brief t.depth st id o = some (t.Brief o) ∧ t.depth ≤ fuel :=
  ⟨(heap_resolve_spec fuel st id t h).1 o, (heap_resolve_spec fuel st id t h).2⟩

/-- C6 witness: the heap copy of the spec's example resolves to the example
tree within budget 5, so `Brief` at depth `exampleDivision.depth`
reproduces the expected output. -/
theorem brief_terminates_on_tree_shaped_witness :
    Heap.Brief exampleDivision.depth heapExampleStore 0 "Move out"
        = some (exampleDivision.Brief "Move out")
    ∧ exampleDivision.depth ≤ 5 :=
  brief_terminates_on_tree_shaped 5 heapExampleStore 0 exampleDivision "Move out" rfl
